import Mathlib

/-!
Verification of the scoring, ranking and color-science core of the
rainbowterm repository.  The Python modules `calc.py`, `colors.py`,
`files.py` and `presets.py` are shallowly embedded: Python floats become
exact rationals (for the ranking layer) or real numbers (for the color
layer, which uses fractional powers), Python lists become `List`,
Python dicts become association lists or `String → Option` maps, and
fallible code returns `Except`/`Option`.
-/

namespace Rainbowterm

section Calc

variable {α : Type} {K : Type} [LinearOrderedField K]

/-- Embeds `clamp` from `calc.py`: `max(lower, min(upper, x))` for
`target = (lower, upper)`. -/
def clamp (x : K) (target : K × K) : K :=
  max target.1 (min target.2 x)

/-- Embeds `map_number` from `calc.py`: affine remap from `source` to
`target`, then clamp to `target`. -/
def map_number (x : K) (source target : K × K) : K :=
  clamp ((x - source.1) / (source.2 - source.1) * (target.2 - target.1) + target.1) target

/-- Embeds `interpolate` from `calc.py`: `x1 + t * (x2 - x1)`. -/
def interpolate (x1 x2 t : K) : K :=
  x1 + t * (x2 - x1)

/-- Embeds `closeness` from `calc.py`: `clamp(1 - (x - y) ** 2, (0, 1))`. -/
def closeness (x y : K) : K :=
  clamp (1 - (x - y) ^ 2) (0, 1)

/-- The comparison used by Python `sorted(values, key=key, reverse=reverse)`:
ascending on `key` unless `reverse`, in which case descending.  Python sort is
stable; `List.insertionSort` with this relation places an earlier element
before a later element with an equal key, which matches that stability. -/
def rankRel (key : α → K) (reverse : Bool) (x y : α) : Prop :=
  if reverse then key y ≤ key x else key x ≤ key y

instance rankRelDec (key : α → K) (reverse : Bool) : DecidableRel (rankRel key reverse) :=
  fun x y => by unfold rankRel; split <;> infer_instance

/-- Embeds the dict comprehension `{x: i / n for i, x in enumerate(values)}`:
pairs each element with its index divided by `n`, indices starting at `i`. -/
def withRanks (n : K) : ℕ → List α → List (α × K)
  | _, [] => []
  | i, x :: xs => (x, (i : K) / n) :: withRanks n (i + 1) xs

/-- Embeds `normalized_ranks` from `calc.py`.  The Python dict result is
modelled as an association list in the same construction order (the dict keys
are the list elements, which are pairwise distinct in every use here). -/
def normalized_ranks (values : List α) (key : α → K) (reverse : Bool) : List (α × K) :=
  match values with
  | [] => []
  | [v] => [(v, 1 / 2)]
  | _ :: _ :: _ =>
    let s := List.insertionSort (rankRel key reverse) values
    withRanks ((s.length - 1 : ℕ) : K) 0 s

/-- The per-step rank gap of one side in `bimodal_normalized_ranks`:
`0.5 / (len(side) - 1) if len(side) > 1 else 0` (`calc.py:97`). -/
def gapOf (side : List α) : K :=
  if 1 < side.length then (1 / 2) / ((side.length - 1 : ℕ) : K) else 0

/-- Embeds `bimodal_normalized_ranks` from `calc.py`.  The merged dict
`{**left_ranks, **right_ranks}` is modelled as the concatenation of the two
association lists; the two sides hold disjoint elements. -/
def bimodal_normalized_ranks (values : List α) (middle : K) (key : α → K)
    (reverse : Bool) : List (α × K) :=
  let left0 := values.filter (fun x => decide (key x ≤ middle))
  let right0 := values.filter (fun x => decide (middle < key x))
  let left := if reverse then right0 else left0
  let right := if reverse then left0 else right0
  let left_gap : K := gapOf left
  let right_gap : K := gapOf right
  let average_gap := (left_gap + right_gap) / 2
  let half_gap := average_gap / 2
  let left_ranks := (normalized_ranks left key reverse).map
    (fun p => (p.1, map_number p.2 (0, 1) (0, 1 / 2 - half_gap)))
  let right_ranks := (normalized_ranks right key reverse).map
    (fun p => (p.1, map_number p.2 (0, 1) (1 / 2 + half_gap, 1)))
  left_ranks ++ right_ranks

end Calc

section History

/-- `MAX_SMART_HISTORY` from `files.py`. -/
def MAX_SMART_HISTORY : ℕ := 100

/-- Models the Python slice `l[-n:]` (the last `n` elements) for `n ≥ 1`;
both uses in the source (`files.py:178` and `presets.py:146`) have `n ≥ 1`.
For `n = 0` this returns `[]`, i.e. "the last zero entries". -/
def takeLast {α : Type} (n : ℕ) (l : List α) : List α :=
  l.drop (l.length - n)

/-- Embeds the `smart_history` setter of `FileStore` (`files.py:175`):
the stored list is truncated to the last `MAX_SMART_HISTORY` entries. -/
def set_smart_history (new_smart_history : List String) : List String :=
  takeLast MAX_SMART_HISTORY new_smart_history

/-- Embeds the append performed by the selector
(`self.filestore.smart_history += [choice.name]`, `presets.py:155`):
read the history, append one name, store through the truncating setter. -/
def append_smart_history (history : List String) (name : String) : List String :=
  set_smart_history (history ++ [name])

end History

section LightDark

/-- Embeds Python `str.replace` on character lists: replaces every
non-overlapping occurrence of `pat` left to right.  Structural recursion on
a fuel argument (one unit per consumed character, so `fuel = s.length`
always suffices); once the fuel is exhausted the remaining input is
returned unchanged.  Only called with non-empty patterns in this
development (for an empty `pat` it returns the input unchanged, unlike
Python). -/
def replListF (pat rep : List Char) : ℕ → List Char → List Char
  | _, [] => []
  | 0, s => s
  | fuel + 1, c :: rest =>
    if pat ≠ [] ∧ pat.isPrefixOf (c :: rest) then
      rep ++ replListF pat rep fuel ((c :: rest).drop pat.length)
    else
      c :: replListF pat rep fuel rest

/-- `replListF` with enough fuel to scan the whole input. -/
def replList (pat rep s : List Char) : List Char :=
  replListF pat rep s.length s

/-- Embeds Python `s.replace(pat, rep)` on strings. -/
def pyReplace (s pat rep : String) : String :=
  String.mk (replList pat.data rep.data s.data)

/-- The `(c, replacement)` pairs tried by `light_dark_alternate`
(`presets.py:65`), in the exact nested loop order of the source:
for `(a, b)` in `[("light", "dark"), ("dark", "light")]`, for `c` in
`[a, "-" ++ a]`, for `d` in `[b, "-" ++ b]`, the replacements
`(c, "")` then `(c, d)`. -/
def lightDarkReplacements : List (String × String) :=
  ([("light", "dark"), ("dark", "light")]).flatMap (fun ab =>
    [ab.1, "-" ++ ab.1].flatMap (fun c =>
      [ab.2, "-" ++ ab.2].flatMap (fun d =>
        [(c, ""), (c, d)])))

/-- Embeds `PresetSelector.light_dark_alternate` (`presets.py:62`): return
the first transformed name that differs from the input and exists in the
preset pool, or none.  The preset dict is modelled by its list of names. -/
def light_dark_alternate (presets : List String) (preset_name : String) : Option String :=
  lightDarkReplacements.findSome? (fun pr =>
    let other := pyReplace preset_name pr.1 pr.2
    if other ≠ preset_name ∧ other ∈ presets then some other else none)

/-- The candidate names tried by `light_dark_alternate`, in source order. -/
def lightDarkCandidates (preset_name : String) : List String :=
  lightDarkReplacements.map (fun pr => pyReplace preset_name pr.1 pr.2)

end LightDark

section Selection

variable {α : Type} {K : Type} [LinearOrderedField K]

/-- Embeds the accumulation of Python `max(items, key=key)`: keep the current
best, replace it only on a strictly greater key (so the first maximal element
in iteration order wins). -/
def maxBy (key : α → K) (x : α) : List α → α
  | [] => x
  | y :: ys => maxBy key (if key x < key y then y else x) ys

/-- Python `max(l, key=key)` for a possibly empty list (`none` on `[]`,
where Python would raise `ValueError`; all uses here are on non-empty
lists). -/
def pyMax (key : α → K) : List α → Option α
  | [] => none
  | x :: xs => some (maxBy key x xs)

/-- Embeds the candidate-filtering prefix of `PresetSelector.smart_choice`
(`presets.py:135`–`151`), which operates on preset names (the keys of the
`self.presets` dict): fail on an empty preset set; if `avoid_repeat` is
zero take all names, otherwise drop the names among the last `avoid_repeat`
history entries; fail if nothing remains. -/
def smart_choice_options (presets history : List String) (avoid_repeat : ℕ) :
    Except String (List String) :=
  if presets.isEmpty then Except.error "no color presets to choose from"
  else
    let options := if avoid_repeat = 0 then presets
      else presets.filter (fun p => decide (p ∉ takeLast avoid_repeat history))
    if options.isEmpty then
      Except.error (toString avoid_repeat ++ ": cannot satisfy smart.avoid_repeat config")
    else Except.ok options

/-- Embeds the selection structure of `smart_choice` (`presets.py:152`–`156`)
over the filtered candidates: choose `max(options, key=total)` and append the
choice to the history.  The scoring key is a parameter: the in-source scoring
path is unreachable (see C1/C2, `smart_scores` raises before producing a
score), and the selection shape holds for any key. -/
def smart_choice_sel (presets history : List String) (avoid_repeat : ℕ)
    (total : String → K) : Except String (String × List String) :=
  match smart_choice_options presets history avoid_repeat with
  | Except.error e => Except.error e
  | Except.ok options =>
    match pyMax total options with
    | some choice => Except.ok (choice, append_smart_history history choice)
    | none => Except.error "unreachable: options is non-empty"

end Selection

section Scoring

/-- A preset as seen by the scoring engine: a name plus its derived
`brightness` (background relative luminance) and `contrast` attributes
(`presets.py:21`–`33`).  The derivation of these two numbers from the
colors is verified separately over ℝ (see the color section); the ranking
layer only ever consumes them through the `key` functions. -/
structure Preset where
  name : String
  brightness : ℚ
  contrast : ℚ
deriving DecidableEq, Repr

/-- Embeds `SmartScore` (`presets.py:36`): three pre-weighted terms. -/
structure SmartScore where
  sun : ℚ
  display : ℚ
  random : ℚ
deriving DecidableEq, Repr

/-- Embeds `SmartScore.total`: the sum of the three terms. -/
def SmartScore.total (s : SmartScore) : ℚ :=
  s.sun + s.display + s.random

/-- Python dict lookup on an association list (first matching key). -/
def assocGet {α β : Type} [DecidableEq α] : List (α × β) → α → Option β
  | [], _ => none
  | p :: rest, a => if p.1 = a then some p.2 else assocGet rest a

/-- Modelled from the spec: `calculate_ideal_rank` (`presets.py:96`).  The
source line 105 reads `map_number(clamp(base_value + offset), source_range,
(0, 1))`, calling `clamp` without its required range argument (a `TypeError`
at runtime); the spec prescribes `mapNumber(clamp(v + offset, [0, 1]),
[min, max], [0, 1])`, which is what this definition computes.  The config
reads (`offset`, `min`, `max`) are passed in as parameters. -/
def calculate_ideal_rank (offset mn mx : ℚ) (base_value : Option ℚ) : Option ℚ :=
  match base_value with
  | none => none
  | some v => some (map_number (clamp (v + offset) (0, 1)) (mn, mx) (0, 1))

/-- Modelled from the spec: `PresetSelector.smart_scores` (`presets.py:74`).
The literal source is not executable on any input: `smart_choice` hands it
preset names instead of `Preset` objects and `calculate_ideal_rank` raises
(see C1/C2).  Following the spec, the config weights, the bimodal flag, the
two ideal ranks (already produced from the environmental signals) and the
injected random source are parameters; ranks are computed over the candidate
list and each preset gets the three weighted terms, an absent ideal rank
contributing a zero term. -/
def smart_scores (wSun wDisplay wRandom : ℚ) (sunBimodal : Bool)
    (idealSun idealDisplay : Option ℚ) (rand : Preset → ℚ)
    (presets : List Preset) : List (Preset × SmartScore) :=
  let sun_ranks := if sunBimodal then
      bimodal_normalized_ranks presets (1 / 2) Preset.brightness false
    else normalized_ranks presets Preset.brightness false
  let display_ranks := normalized_ranks presets Preset.contrast true
  presets.map (fun p =>
    let sun_rank := (assocGet sun_ranks p).getD 0
    let display_rank := (assocGet display_ranks p).getD 0
    let sun_term : ℚ := match idealSun with
      | none => 0
      | some ideal => closeness sun_rank ideal
    let display_term : ℚ := match idealDisplay with
      | none => 0
      | some ideal => closeness display_rank ideal
    (p, ⟨wSun * sun_term, wDisplay * display_term, wRandom * rand p⟩))

/-- Modelled from the spec: `PresetSelector.smart_choice` (`presets.py:131`)
as intended — the literal source raises on every call with a non-empty
preset set (see C1).  Candidate filtering and the history append follow the
source lines 135–151 and 155; the scoring step follows the spec: compute
`smart_scores` over the candidates and pick the candidate with maximal
`total()` (first maximal in iteration order). -/
def smart_choice (presets : List Preset) (history : List String) (avoid_repeat : ℕ)
    (wSun wDisplay wRandom : ℚ) (sunBimodal : Bool) (idealSun idealDisplay : Option ℚ)
    (rand : Preset → ℚ) : Except String (Preset × List String) :=
  if presets.isEmpty then Except.error "no color presets to choose from"
  else
    let options := if avoid_repeat = 0 then presets
      else presets.filter (fun p => decide (p.name ∉ takeLast avoid_repeat history))
    if options.isEmpty then
      Except.error (toString avoid_repeat ++ ": cannot satisfy smart.avoid_repeat config")
    else
      let scores := smart_scores wSun wDisplay wRandom sunBimodal idealSun idealDisplay
        rand options
      match pyMax (fun p => ((assocGet scores p).getD ⟨0, 0, 0⟩).total) options with
      | some choice => Except.ok (choice, append_smart_history history choice.name)
      | none => Except.error "unreachable: options is non-empty"

end Scoring

section Colors

/-- Embeds `BitColor` (`colors.py:36`): an sRGB color with 8-bit integer
channels.  The construction-time assertions `0 <= channel <= 255` become the
separate predicate `BitColor.valid`. -/
structure BitColor where
  r : ℤ
  g : ℤ
  b : ℤ
deriving DecidableEq, Repr

/-- The constructor assertions of `BitColor`: every channel lies in
`[0, 255]`. -/
def BitColor.valid (c : BitColor) : Prop :=
  0 ≤ c.r ∧ c.r ≤ 255 ∧ 0 ≤ c.g ∧ c.g ≤ 255 ∧ 0 ≤ c.b ∧ c.b ≤ 255

instance (c : BitColor) : Decidable c.valid := by
  unfold BitColor.valid; infer_instance

/-- Embeds `LinearColor` (`colors.py:8`): a linear RGB color with
floating-point channels, modelled over ℝ. -/
structure LinearColor where
  r : ℝ
  g : ℝ
  b : ℝ

/-- Embeds `LinearColor.relative_luminance` (`colors.py:20`). -/
noncomputable def LinearColor.relative_luminance (c : LinearColor) : ℝ :=
  0.2126 * c.r + 0.7152 * c.g + 0.0722 * c.b

/-- Embeds `LinearColor.interpolate` (`colors.py:27`): channel-wise linear
interpolation. -/
noncomputable def LinearColor.interpolate (c other : LinearColor) (t : ℝ) : LinearColor :=
  ⟨Rainbowterm.interpolate c.r other.r t,
   Rainbowterm.interpolate c.g other.g t,
   Rainbowterm.interpolate c.b other.b t⟩

/-- Python 3 `round`: round half to even, otherwise round to the nearest
integer. -/
noncomputable def pyRound (x : ℝ) : ℤ :=
  if Int.fract x = 1 / 2 then (if ⌊x⌋ % 2 = 0 then ⌊x⌋ else ⌊x⌋ + 1) else round x

/-- Embeds the inner function `f` of `BitColor.from_linear` (`colors.py:60`):
sRGB encode one linear channel, remap `[0, 1]` to `[0, 255]`, round. -/
noncomputable def BitColor.from_linear_f (x : ℝ) : ℤ :=
  let x' := if x ≤ 0.0031308 then x * 12.92 else 1.055 * x ^ ((1 : ℝ) / 2.4) - 0.055
  pyRound (map_number x' (0, 1) (0, 255))

/-- Embeds `BitColor.from_linear` (`colors.py:56`). -/
noncomputable def BitColor.from_linear (color : LinearColor) : BitColor :=
  ⟨from_linear_f color.r, from_linear_f color.g, from_linear_f color.b⟩

/-- Embeds the inner function `f` of `BitColor.to_linear` (`colors.py:72`):
remap `[0, 255]` to `[0, 1]`, sRGB decode, clamp to `[0, 1]`. -/
noncomputable def BitColor.to_linear_f (xi : ℤ) : ℝ :=
  let x : ℝ := map_number (xi : ℝ) (0, 255) (0, 1)
  let x' := if x ≤ 0.04045 then x / 12.92 else ((x + 0.055) / 1.055) ^ (2.4 : ℝ)
  clamp x' (0, 1)

/-- Embeds `BitColor.to_linear` (`colors.py:69`). -/
noncomputable def BitColor.to_linear (c : BitColor) : LinearColor :=
  ⟨to_linear_f c.r, to_linear_f c.g, to_linear_f c.b⟩

/-- Embeds `Colors` (`colors.py:83`): a mapping from string role names to
`BitColor`, modelled as a partial function (Python dict lookup raising
`KeyError` becomes `none`). -/
abbrev Colors : Type := String → Option BitColor

/-- `Colors.FG` (`colors.py:86`). -/
def Colors.FG : String := "Foreground Color"

/-- `Colors.BG` (`colors.py:87`). -/
def Colors.BG : String := "Background Color"

/-- Embeds `Colors.relative_luminance` (`colors.py:107`): the relative
luminance of the background color. -/
noncomputable def Colors.relative_luminance (c : Colors) : Option ℝ :=
  (c Colors.BG).map (fun bg => bg.to_linear.relative_luminance)

/-- Embeds `Colors.contrast_ratio` (`colors.py:111`): the normalized
foreground/background contrast `clamp(((lighter + 0.05) / (darker + 0.05)
- 1) / 20, (0, 1))`. -/
noncomputable def Colors.contrastValue (c : Colors) : Option ℝ :=
  match c Colors.FG, c Colors.BG with
  | some fg, some bg =>
    let r1 := fg.to_linear.relative_luminance
    let r2 := bg.to_linear.relative_luminance
    let lighter := max r1 r2
    let darker := min r1 r2
    some (clamp (((lighter + 0.05) / (darker + 0.05) - 1) / 20) (0, 1))
  | _, _ => none

/-- Embeds `Colors.interpolate` (`colors.py:122`): interpolate role-wise over
the roles present in both inputs; all other roles are absent from the
result. -/
noncomputable def Colors.interpolate (c other : Colors) (t : ℝ) : Colors := fun name =>
  match c name, other name with
  | some c1, some c2 => some (BitColor.from_linear (c1.to_linear.interpolate c2.to_linear t))
  | _, _ => none

/-- The restriction of `c` to the roles present in `other` (used to state
the endpoint laws of `Colors.interpolate`). -/
def Colors.restrictTo (c other : Colors) : Colors := fun name =>
  if (other name).isSome then c name else none

/-- A `Colors` value holding exactly a foreground and a background color
(the minimal dict accepted by the `Colors` constructor assertion). -/
def mkColors (fg bg : BitColor) : Colors := fun name =>
  if name = Colors.FG then some fg else if name = Colors.BG then some bg else none

/-- Embeds `PresetSelector.animation_frames` (`presets.py:158`): the frames
`i = 1 .. frames` interpolate from the start colors to the end colors at
parameter `t = i / frames`.  The config read `animation.frames` is passed in
as a parameter and the lazy generator is modelled as the list of its
elements. -/
noncomputable def animation_frames (frames : ℕ) (start_colors end_colors : Colors) :
    List Colors :=
  (List.range' 1 frames).map
    (fun i : ℕ => start_colors.interpolate end_colors ((i : ℝ) / (frames : ℝ)))

end Colors

section ClampLemmas

variable {K : Type} [LinearOrderedField K]

lemma clamp_eq_self {x lo hi : K} (h1 : lo ≤ x) (h2 : x ≤ hi) : clamp x (lo, hi) = x := by
  simp [clamp, min_eq_right h2, max_eq_right h1]

lemma le_clamp (x lo hi : K) : lo ≤ clamp x (lo, hi) := le_max_left _ _

lemma clamp_le {x lo hi : K} (h : lo ≤ hi) : clamp x (lo, hi) ≤ hi :=
  max_le h (min_le_left _ _)

lemma interpolate_zero (x1 x2 : K) : interpolate x1 x2 0 = x1 := by
  simp [interpolate]

lemma interpolate_one (x1 x2 : K) : interpolate x1 x2 1 = x2 := by
  simp [interpolate]

end ClampLemmas

section RoundTrip

lemma pyRound_intCast (z : ℤ) : pyRound (z : ℝ) = z := by
  unfold pyRound
  rw [Int.fract_intCast]
  norm_num

/-- Remapping an in-range integer channel from `[0, 255]` to `[0, 1]` gives
exactly `z / 255`. -/
lemma map_number_byte (z : ℤ) (h0 : 0 ≤ z) (h255 : z ≤ 255) :
    map_number ((z : ℤ) : ℝ) (0, 255) (0, 1) = (z : ℝ) / 255 := by
  have hz0 : (0 : ℝ) ≤ (z : ℝ) := by exact_mod_cast h0
  have hz255 : ((z : ℤ) : ℝ) ≤ 255 := by exact_mod_cast h255
  unfold map_number
  have he : (((z : ℤ) : ℝ) - 0) / (255 - 0) * (1 - 0) + 0 = (z : ℝ) / 255 := by ring
  rw [he, clamp_eq_self (by positivity) (by rw [div_le_one (by norm_num)]; linarith)]

/-- Remapping `z / 255` back to `[0, 255]` gives exactly `z`. -/
lemma map_number_unbyte (z : ℤ) (h0 : 0 ≤ z) (h255 : z ≤ 255) :
    map_number ((z : ℝ) / 255) (0, 1) (0, 255) = (z : ℝ) := by
  have hz0 : (0 : ℝ) ≤ (z : ℝ) := by exact_mod_cast h0
  have hz255 : ((z : ℤ) : ℝ) ≤ 255 := by exact_mod_cast h255
  unfold map_number
  have he : ((z : ℝ) / 255 - 0) / (1 - 0) * (255 - 0) + 0 = (z : ℝ) := by
    field_simp
  rw [he, clamp_eq_self hz0 hz255]

/-- The decisive branch inequality of the sRGB round trip: the decoded value
of the smallest channel taking the power branch stays above the encoder's
linear-branch threshold. -/
lemma srgb_power_branch_lb :
    (0.0031308 : ℝ) < (((11 : ℝ) / 255 + 0.055) / 1.055) ^ (2.4 : ℝ) := by
  set u₀ : ℝ := ((11 : ℝ) / 255 + 0.055) / 1.055 with hu₀
  have hpos : (0 : ℝ) < u₀ := by rw [hu₀]; norm_num
  by_contra hc
  push_neg at hc
  have h5 : (u₀ ^ (2.4 : ℝ)) ^ (5 : ℕ) ≤ (0.0031308 : ℝ) ^ (5 : ℕ) :=
    pow_le_pow_left₀ (Real.rpow_nonneg hpos.le _) hc 5
  have h12 : (u₀ ^ (2.4 : ℝ)) ^ (5 : ℕ) = u₀ ^ (12 : ℕ) := by
    rw [← Real.rpow_natCast (u₀ ^ (2.4 : ℝ)) 5, ← Real.rpow_mul hpos.le,
      show ((2.4 : ℝ) * (5 : ℕ)) = ((12 : ℕ) : ℝ) by norm_num, Real.rpow_natCast]
  rw [h12] at h5
  rw [hu₀] at h5
  norm_num at h5

/-- sRGB decode then encode is the identity on every integer channel in
`[0, 255]` (channel level). -/
lemma from_linear_to_linear_f (z : ℤ) (h0 : 0 ≤ z) (h255 : z ≤ 255) :
    BitColor.from_linear_f (BitColor.to_linear_f z) = z := by
  have hz0 : (0 : ℝ) ≤ (z : ℝ) := by exact_mod_cast h0
  have hz255 : ((z : ℤ) : ℝ) ≤ 255 := by exact_mod_cast h255
  have hdiv0 : (0 : ℝ) ≤ (z : ℝ) / 255 := by positivity
  have hdiv1 : (z : ℝ) / 255 ≤ 1 := by rw [div_le_one (by norm_num)]; linarith
  simp only [BitColor.to_linear_f, map_number_byte z h0 h255]
  rcases le_or_lt z 10 with h10 | h11
  · -- linear branch of the decoder
    have hub : (z : ℝ) ≤ 10 := by exact_mod_cast h10
    have hcond : (z : ℝ) / 255 ≤ 0.04045 := by
      rw [div_le_iff₀ (by norm_num : (0 : ℝ) < 255)]; linarith
    rw [if_pos hcond]
    have hlin1 : (z : ℝ) / 255 / 12.92 ≤ 1 := by
      rw [div_le_one (by norm_num)]; linarith
    rw [clamp_eq_self (by positivity) hlin1]
    simp only [BitColor.from_linear_f]
    have hcond2 : (z : ℝ) / 255 / 12.92 ≤ 0.0031308 := by
      rw [div_le_iff₀ (by norm_num : (0 : ℝ) < 12.92), div_le_iff₀
        (by norm_num : (0 : ℝ) < 255)]
      linarith
    rw [if_pos hcond2, div_mul_cancel₀ _ (by norm_num : (12.92 : ℝ) ≠ 0),
      map_number_unbyte z h0 h255, pyRound_intCast]
  · -- power branch of the decoder
    have hlb : (11 : ℝ) ≤ (z : ℝ) := by exact_mod_cast h11
    have hcond : ¬ ((z : ℝ) / 255 ≤ 0.04045) := by
      push_neg
      rw [lt_div_iff₀ (by norm_num : (0 : ℝ) < 255)]; linarith
    rw [if_neg hcond]
    set u : ℝ := ((z : ℝ) / 255 + 0.055) / 1.055 with hu
    have hu_pos : (0 : ℝ) < u := by rw [hu]; positivity
    have hu_le1 : u ≤ 1 := by
      rw [hu, div_le_one (by norm_num)]; linarith
    have hu_lb : ((11 : ℝ) / 255 + 0.055) / 1.055 ≤ u := by
      rw [hu]; gcongr
    have hrp_pos : (0 : ℝ) < u ^ (2.4 : ℝ) := Real.rpow_pos_of_pos hu_pos _
    have hrp_le1 : u ^ (2.4 : ℝ) ≤ 1 := Real.rpow_le_one hu_pos.le hu_le1 (by norm_num)
    rw [clamp_eq_self hrp_pos.le hrp_le1]
    simp only [BitColor.from_linear_f]
    have hcond2 : ¬ (u ^ (2.4 : ℝ) ≤ 0.0031308) := by
      push_neg
      calc (0.0031308 : ℝ) < (((11 : ℝ) / 255 + 0.055) / 1.055) ^ (2.4 : ℝ) :=
            srgb_power_branch_lb
        _ ≤ u ^ (2.4 : ℝ) := Real.rpow_le_rpow (by norm_num) hu_lb (by norm_num)
    rw [if_neg hcond2]
    have hroot : (u ^ (2.4 : ℝ)) ^ ((1 : ℝ) / 2.4) = u := by
      rw [← Real.rpow_mul hu_pos.le, show (2.4 : ℝ) * (1 / 2.4) = 1 by norm_num,
        Real.rpow_one]
    rw [hroot, hu, mul_div_cancel₀ _ (by norm_num : (1.055 : ℝ) ≠ 0),
      show (z : ℝ) / 255 + 0.055 - 0.055 = (z : ℝ) / 255 by ring,
      map_number_unbyte z h0 h255, pyRound_intCast]

/-- sRGB decode then encode is the identity on valid `BitColor`s. -/
lemma from_linear_to_linear (c : BitColor) (h : c.valid) :
    BitColor.from_linear c.to_linear = c := by
  obtain ⟨h1, h2, h3, h4, h5, h6⟩ := h
  simp only [BitColor.from_linear, BitColor.to_linear,
    from_linear_to_linear_f _ h1 h2, from_linear_to_linear_f _ h3 h4,
    from_linear_to_linear_f _ h5 h6]

end RoundTrip

section RankLemmas

variable {α : Type} {K : Type} [LinearOrderedField K]

instance rankRelTotal (key : α → K) (reverse : Bool) : IsTotal α (rankRel key reverse) := by
  constructor
  intro a b
  cases reverse <;> simp [rankRel] <;> exact le_total _ _

instance rankRelTrans (key : α → K) (reverse : Bool) : IsTrans α (rankRel key reverse) := by
  constructor
  intro a b c
  cases reverse <;> simp only [rankRel, if_true, if_false, Bool.false_eq_true]
  · exact fun h1 h2 => le_trans h1 h2
  · exact fun h1 h2 => le_trans h2 h1

lemma withRanks_map_fst (n : K) (i : ℕ) (l : List α) :
    (withRanks n i l).map Prod.fst = l := by
  induction l generalizing i with
  | nil => simp [withRanks]
  | cons a as ih => simp [withRanks, ih]

lemma withRanks_mem {n : K} {i : ℕ} {l : List α} {x : α} {r : K}
    (h : (x, r) ∈ withRanks n i l) : ∃ j, j < l.length ∧ r = ((i + j : ℕ) : K) / n := by
  induction l generalizing i with
  | nil => simp [withRanks] at h
  | cons a as ih =>
    rcases List.mem_cons.mp h with heq | hmem
    · refine ⟨0, by simp, ?_⟩
      have := (Prod.mk.injEq _ _ _ _).mp heq
      simp [this.2.symm]
    · obtain ⟨j, hj, hr⟩ := ih hmem
      refine ⟨j + 1, by simpa using Nat.succ_lt_succ hj, ?_⟩
      rw [hr, show i + 1 + j = i + (j + 1) by omega]

lemma withRanks_getElem? (n : K) (i j : ℕ) (l : List α) :
    (withRanks n i l)[j]? = (l[j]?).map (fun x => (x, ((i + j : ℕ) : K) / n)) := by
  induction l generalizing i j with
  | nil => simp [withRanks]
  | cons a as ih =>
    cases j with
    | zero => simp [withRanks]
    | succ j =>
      simp only [withRanks, List.getElem?_cons_succ, ih]
      rw [show i + 1 + j = i + (j + 1) from by omega]

lemma norm_ranks_fst_perm (values : List α) (key : α → K) (reverse : Bool) :
    List.Perm ((normalized_ranks values key reverse).map Prod.fst) values := by
  rcases values with _ | ⟨a, _ | ⟨b, rest⟩⟩
  · simp [normalized_ranks]
  · simp [normalized_ranks]
  · simp only [normalized_ranks, withRanks_map_fst]
    exact List.perm_insertionSort _ _

lemma norm_ranks_mem_bounds {values : List α} {key : α → K} {reverse : Bool} {x : α} {r : K}
    (h : (x, r) ∈ normalized_ranks values key reverse) : 0 ≤ r ∧ r ≤ 1 := by
  rcases values with _ | ⟨a, _ | ⟨b, rest⟩⟩
  · simp [normalized_ranks] at h
  · simp only [normalized_ranks, List.mem_singleton, Prod.mk.injEq] at h
    rw [h.2]; norm_num
  · simp only [normalized_ranks] at h
    obtain ⟨j, hj, hr⟩ := withRanks_mem h
    have hsl : (List.insertionSort (rankRel key reverse) (a :: b :: rest)).length
        = rest.length + 2 := by
      simp only [List.length_insertionSort, List.length_cons]
    rw [hsl] at hj hr
    subst hr
    have hn0 : (0 : K) < ((rest.length + 2 - 1 : ℕ) : K) := by
      have : (0 : ℕ) < rest.length + 2 - 1 := by omega
      exact_mod_cast this
    constructor
    · positivity
    · rw [div_le_one hn0]
      exact_mod_cast (by omega : (0 + j : ℕ) ≤ rest.length + 2 - 1)

lemma norm_ranks_of_short {values : List α} (hlen : values.length ≤ 1) {key : α → K}
    {reverse : Bool} {x : α} {r : K} (h : (x, r) ∈ normalized_ranks values key reverse) :
    r = 1 / 2 := by
  rcases values with _ | ⟨a, _ | ⟨b, rest⟩⟩
  · simp [normalized_ranks] at h
  · simp only [normalized_ranks, List.mem_singleton, Prod.mk.injEq] at h
    exact h.2
  · simp at hlen

lemma norm_ranks_pairwise (values : List α) (key : α → K) :
    List.Pairwise (fun p q : α × K => key p.1 ≤ key q.1)
      (normalized_ranks values key false) := by
  rcases values with _ | ⟨a, _ | ⟨b, rest⟩⟩
  · simp [normalized_ranks]
  · simp [normalized_ranks]
  · simp only [normalized_ranks]
    have hs : List.Pairwise (rankRel key false)
        (List.insertionSort (rankRel key false) (a :: b :: rest)) :=
      List.sorted_insertionSort _ _
    rw [← withRanks_map_fst
      (((List.insertionSort (rankRel key false) (a :: b :: rest)).length - 1 : ℕ) : K) 0
      (List.insertionSort (rankRel key false) (a :: b :: rest)), List.pairwise_map] at hs
    refine hs.imp ?_
    intro p q hpq
    simpa [rankRel] using hpq

lemma norm_ranks_getElem? (values : List α) (key : α → K) (reverse : Bool)
    (hlen : 2 ≤ values.length) (i : ℕ) (hi : i < values.length) :
    ∃ x, (normalized_ranks values key reverse)[i]? =
      some (x, (i : K) / ((values.length - 1 : ℕ) : K)) := by
  rcases values with _ | ⟨a, _ | ⟨b, rest⟩⟩
  · simp at hlen
  · simp at hlen
  · simp only [normalized_ranks]
    rw [withRanks_getElem?]
    have hi' : i < (List.insertionSort (rankRel key reverse) (a :: b :: rest)).length := by
      rw [List.length_insertionSort]; exact hi
    refine ⟨(List.insertionSort (rankRel key reverse) (a :: b :: rest)).get ⟨i, hi'⟩, ?_⟩
    rw [List.getElem?_eq_getElem hi']
    have hlen2 : ((List.insertionSort (rankRel key reverse) (a :: b :: rest)).length - 1 : ℕ)
        = ((a :: b :: rest).length - 1 : ℕ) := by rw [List.length_insertionSort]
    rw [Option.map_some', Nat.zero_add, hlen2]
    rfl

end RankLemmas

section BimodalLemmas

variable {α : Type} {K : Type} [LinearOrderedField K]

lemma gapOf_nonneg (l : List α) : (0 : K) ≤ gapOf l := by
  unfold gapOf
  split
  · positivity
  · exact le_refl 0

lemma gapOf_le_half (l : List α) : gapOf (K := K) l ≤ 1 / 2 := by
  unfold gapOf
  split
  · rename_i h
    have h1 : (1 : K) ≤ ((l.length - 1 : ℕ) : K) := by
      exact_mod_cast Nat.one_le_iff_ne_zero.mpr (by omega)
    rw [div_le_iff₀ (lt_of_lt_of_le zero_lt_one h1)]
    nlinarith
  · norm_num

lemma gapOf_eq_zero {l : List α} (h : gapOf (K := K) l = 0) : l.length ≤ 1 := by
  by_contra hc
  push_neg at hc
  rw [gapOf, if_pos hc] at h
  have h1 : (0 : K) < ((l.length - 1 : ℕ) : K) := by
    exact_mod_cast (by omega : 0 < l.length - 1)
  have h2 : (0 : K) < (1 / 2 : K) / ((l.length - 1 : ℕ) : K) := by positivity
  exact absurd h (ne_of_gt h2)

lemma map_number_unit_left (r u : K) : map_number r (0, 1) (0, u) = clamp (r * u) (0, u) := by
  unfold map_number
  congr 1
  ring

lemma map_number_unit_right (r v : K) :
    map_number r (0, 1) (v, 1) = clamp (r * (1 - v) + v) (v, 1) := by
  unfold map_number
  congr 1
  ring

lemma scaled_left_ne_half {l : List α} {key : α → K} {reverse : Bool} {hg : K}
    (hg0 : 0 ≤ hg) (hgh : hg ≤ 1 / 2) (hz : hg = 0 → l.length ≤ 1) {x : α} {r : K}
    (hmem : (x, r) ∈ (normalized_ranks l key reverse).map
      (fun p => (p.1, map_number p.2 (0, 1) (0, 1 / 2 - hg)))) : r ≠ 1 / 2 := by
  obtain ⟨p, hp, heq⟩ := List.mem_map.mp hmem
  have hr : r = map_number p.2 (0, 1) (0, 1 / 2 - hg) :=
    ((Prod.mk.injEq _ _ _ _).mp heq).2.symm
  intro hr2
  have hle : map_number p.2 (0, 1) (0, 1 / 2 - hg) ≤ 1 / 2 - hg :=
    clamp_le (by linarith)
  have hg_eq : hg = 0 := by
    have hmap : map_number p.2 (0, 1) (0, 1 / 2 - hg) = 1 / 2 := by rw [← hr]; exact hr2
    linarith [hle, hmap]
  have hlen := hz hg_eq
  have hhalf : p.2 = 1 / 2 := by
    refine @norm_ranks_of_short α K _ l hlen key reverse p.1 p.2 ?_
    rw [Prod.mk.eta]
    exact hp
  rw [hr, hhalf, hg_eq, map_number_unit_left,
    show (1 / 2 : K) * (1 / 2 - 0) = 1 / 4 by ring,
    clamp_eq_self (by norm_num) (by norm_num)] at hr2
  norm_num at hr2

lemma scaled_right_ne_half {l : List α} {key : α → K} {reverse : Bool} {hg : K}
    (hg0 : 0 ≤ hg) (hgh : hg ≤ 1 / 2) (hz : hg = 0 → l.length ≤ 1) {x : α} {r : K}
    (hmem : (x, r) ∈ (normalized_ranks l key reverse).map
      (fun p => (p.1, map_number p.2 (0, 1) (1 / 2 + hg, 1)))) : r ≠ 1 / 2 := by
  obtain ⟨p, hp, heq⟩ := List.mem_map.mp hmem
  have hr : r = map_number p.2 (0, 1) (1 / 2 + hg, 1) :=
    ((Prod.mk.injEq _ _ _ _).mp heq).2.symm
  intro hr2
  have hge : 1 / 2 + hg ≤ map_number p.2 (0, 1) (1 / 2 + hg, 1) :=
    le_clamp _ _ _
  have hg_eq : hg = 0 := by
    have hmap : map_number p.2 (0, 1) (1 / 2 + hg, 1) = 1 / 2 := by rw [← hr]; exact hr2
    linarith [hge, hmap]
  have hlen := hz hg_eq
  have hhalf : p.2 = 1 / 2 := by
    refine @norm_ranks_of_short α K _ l hlen key reverse p.1 p.2 ?_
    rw [Prod.mk.eta]
    exact hp
  rw [hr, hhalf, hg_eq, map_number_unit_right,
    show (1 / 2 : K) * (1 - (1 / 2 + 0)) + (1 / 2 + 0) = 3 / 4 by ring,
    clamp_eq_self (by norm_num) (by norm_num)] at hr2
  norm_num at hr2

/-- No entry of `bimodal_normalized_ranks` ever carries the rank exactly
`1/2`: the half-gap rescaling keeps the left side strictly below and the
right side strictly above the midpoint. -/
lemma bimodal_rank_ne_half (values : List α) (middle : K) (key : α → K) (reverse : Bool)
    (x : α) (r : K) (hmem : (x, r) ∈ bimodal_normalized_ranks values middle key reverse) :
    r ≠ 1 / 2 := by
  simp only [bimodal_normalized_ranks, List.mem_append] at hmem
  set L := if reverse then values.filter (fun x => decide (middle < key x))
    else values.filter (fun x => decide (key x ≤ middle)) with hLdef
  set R := if reverse then values.filter (fun x => decide (key x ≤ middle))
    else values.filter (fun x => decide (middle < key x)) with hRdef
  have hg0 : (0 : K) ≤ (gapOf L + gapOf R) / 2 / 2 := by
    have := gapOf_nonneg (K := K) L
    have := gapOf_nonneg (K := K) R
    linarith
  have hgh : (gapOf L + gapOf R) / 2 / 2 ≤ (1 : K) / 2 := by
    have := gapOf_le_half (K := K) L
    have := gapOf_le_half (K := K) R
    have := gapOf_nonneg (K := K) L
    have := gapOf_nonneg (K := K) R
    linarith
  rcases hmem with hmem | hmem
  · refine scaled_left_ne_half hg0 hgh ?_ hmem
    intro hzero
    refine gapOf_eq_zero (K := K) ?_
    have hL := gapOf_nonneg (K := K) L
    have hR := gapOf_nonneg (K := K) R
    linarith
  · refine scaled_right_ne_half hg0 hgh ?_ hmem
    intro hzero
    refine gapOf_eq_zero (K := K) ?_
    have hL := gapOf_nonneg (K := K) L
    have hR := gapOf_nonneg (K := K) R
    linarith

end BimodalLemmas

section SelectionLemmas

variable {α : Type} {K : Type} [LinearOrderedField K]

lemma maxBy_mem (key : α → K) (x : α) (xs : List α) : maxBy key x xs ∈ x :: xs := by
  induction xs generalizing x with
  | nil => simp [maxBy]
  | cons y ys ih =>
    simp only [maxBy]
    rcases List.mem_cons.mp (ih (if key x < key y then y else x)) with h | h
    · rw [h]
      split <;> simp
    · simp [h]

lemma le_maxBy (key : α → K) (x : α) (xs : List α) :
    key x ≤ key (maxBy key x xs) ∧ ∀ y ∈ xs, key y ≤ key (maxBy key x xs) := by
  induction xs generalizing x with
  | nil => exact ⟨le_refl _, by simp⟩
  | cons y ys ih =>
    obtain ⟨h1, h2⟩ := ih (if key x < key y then y else x)
    have hx : key x ≤ key (if key x < key y then y else x) := by
      split
      · rename_i hlt; exact le_of_lt hlt
      · exact le_refl _
    have hy : key y ≤ key (if key x < key y then y else x) := by
      split
      · exact le_refl _
      · rename_i hlt; exact le_of_not_lt hlt
    simp only [maxBy]
    refine ⟨le_trans hx h1, ?_⟩
    intro z hz
    rcases List.mem_cons.mp hz with hz | hz
    · rw [hz]; exact le_trans hy h1
    · exact h2 z hz

lemma pyMax_spec (key : α → K) (x : α) (xs : List α) :
    pyMax key (x :: xs) = some (maxBy key x xs) ∧ maxBy key x xs ∈ x :: xs ∧
      ∀ y ∈ x :: xs, key y ≤ key (maxBy key x xs) := by
  refine ⟨rfl, maxBy_mem key x xs, ?_⟩
  intro y hy
  rcases List.mem_cons.mp hy with h | h
  · rw [h]; exact (le_maxBy key x xs).1
  · exact (le_maxBy key x xs).2 y h

lemma takeLast_zero (l : List α) : takeLast 0 l = [] := by
  simp [takeLast]

lemma smart_choice_options_ok {presets history : List String} {n : ℕ} {options : List String}
    (h : smart_choice_options presets history n = Except.ok options) :
    options = (if n = 0 then presets
      else presets.filter (fun p => decide (p ∉ takeLast n history))) ∧ options ≠ [] := by
  simp only [smart_choice_options] at h
  by_cases h1 : presets.isEmpty
  · rw [if_pos h1] at h
    exact absurd h (by simp)
  · rw [if_neg h1] at h
    by_cases h2 : n = 0
    · rw [if_pos h2] at h
      rw [if_neg h1] at h
      simp only [Except.ok.injEq] at h
      subst h
      exact ⟨by rw [if_pos h2], fun hnil => h1 (by rw [hnil]; rfl)⟩
    · rw [if_neg h2] at h
      rw [if_neg h2]
      by_cases h3 : (presets.filter (fun p => decide (p ∉ takeLast n history))).isEmpty
      · rw [if_pos h3] at h
        exact absurd h (by simp)
      · rw [if_neg h3] at h
        simp only [Except.ok.injEq] at h
        subst h
        exact ⟨rfl, fun hnil => h3 (by rw [hnil]; rfl)⟩

lemma smart_choice_options_mem {presets history : List String} {n : ℕ} {options : List String}
    (h : smart_choice_options presets history n = Except.ok options) :
    ∀ p ∈ options, p ∈ presets ∧ p ∉ takeLast n history := by
  obtain ⟨hopt, -⟩ := smart_choice_options_ok h
  intro p hp
  rw [hopt] at hp
  by_cases hn : n = 0
  · rw [if_pos hn] at hp
    rw [hn, takeLast_zero]
    exact ⟨hp, by simp⟩
  · rw [if_neg hn] at hp
    obtain ⟨hmem, hdec⟩ := List.mem_filter.mp hp
    exact ⟨hmem, of_decide_eq_true hdec⟩

lemma smart_choice_sel_ok {presets history : List String} {n : ℕ} {total : String → K}
    {choice : String} {h2 : List String}
    (h : smart_choice_sel presets history n total = Except.ok (choice, h2)) :
    choice ∈ presets ∧ choice ∉ takeLast n history ∧
      h2 = append_smart_history history choice := by
  unfold smart_choice_sel at h
  rcases hopt : smart_choice_options presets history n with e | options
  · rw [hopt] at h
    simp at h
  · rw [hopt] at h
    cases options with
    | nil => simp [pyMax] at h
    | cons x xs =>
      simp only [pyMax, Except.ok.injEq, Prod.mk.injEq] at h
      obtain ⟨hc, hh⟩ := h
      have hmem : choice ∈ x :: xs := by rw [← hc]; exact maxBy_mem total x xs
      obtain ⟨hin, hnot⟩ := smart_choice_options_mem hopt choice hmem
      refine ⟨hin, hnot, ?_⟩
      rw [← hc]
      exact hh.symm

lemma smart_choice_sel_nil (history : List String) (n : ℕ) (total : String → K) :
    smart_choice_sel [] history n total =
      Except.error "no color presets to choose from" := rfl

lemma smart_choice_sel_excluded {presets history : List String} {n : ℕ}
    (total : String → K) (hne : presets ≠ []) (hn : n ≠ 0)
    (hempty : presets.filter (fun p => decide (p ∉ takeLast n history)) = []) :
    smart_choice_sel presets history n total =
      Except.error (toString n ++ ": cannot satisfy smart.avoid_repeat config") := by
  simp only [smart_choice_sel, smart_choice_options]
  rw [if_neg (by simpa using hne), if_neg hn, hempty]
  simp

end SelectionLemmas

section HistoryLemmas

variable {α : Type}

lemma append_smart_history_eq (history : List String) (name : String) :
    append_smart_history history name =
      (history ++ [name]).drop (history.length + 1 - 100) := by
  simp [append_smart_history, set_smart_history, takeLast, MAX_SMART_HISTORY]

lemma drop_append_getLast? (l : List α) (x : α) (k : ℕ) (hk : k ≤ l.length) :
    ((l ++ [x]).drop k).getLast? = some x := by
  rw [List.drop_append_of_le_length hk]
  exact List.getLast?_concat _

end HistoryLemmas

section ColorLemmas

lemma LinearColor.interp_at_zero (c d : LinearColor) : c.interpolate d 0 = c := by
  simp [LinearColor.interpolate, Rainbowterm.interpolate]

lemma LinearColor.interp_at_one (c d : LinearColor) : c.interpolate d 1 = d := by
  simp [LinearColor.interpolate, Rainbowterm.interpolate]

lemma to_linear_f_nonneg (z : ℤ) : 0 ≤ BitColor.to_linear_f z := by
  simp only [BitColor.to_linear_f]
  exact le_clamp _ _ _

lemma to_linear_f_le_one (z : ℤ) : BitColor.to_linear_f z ≤ 1 := by
  simp only [BitColor.to_linear_f]
  exact clamp_le (by norm_num)

lemma luminance_nonneg (c : BitColor) : 0 ≤ c.to_linear.relative_luminance := by
  simp only [BitColor.to_linear, LinearColor.relative_luminance]
  have h1 := to_linear_f_nonneg c.r
  have h2 := to_linear_f_nonneg c.g
  have h3 := to_linear_f_nonneg c.b
  nlinarith

lemma to_linear_f_zero : BitColor.to_linear_f 0 = 0 := by
  simp only [BitColor.to_linear_f]
  rw [show ((0 : ℤ) : ℝ) = ((0 : ℤ) : ℝ) from rfl, map_number_byte 0 (by norm_num) (by norm_num)]
  rw [if_pos (by norm_num : ((0 : ℤ) : ℝ) / 255 ≤ 0.04045)]
  rw [clamp_eq_self (by norm_num) (by norm_num)]
  norm_num

lemma to_linear_f_255 : BitColor.to_linear_f 255 = 1 := by
  simp only [BitColor.to_linear_f]
  rw [map_number_byte 255 (by norm_num) (by norm_num)]
  rw [if_neg (by norm_num : ¬ (((255 : ℤ) : ℝ) / 255 ≤ 0.04045))]
  rw [show (((255 : ℤ) : ℝ) / 255 + 0.055) / 1.055 = 1 by norm_num, Real.one_rpow]
  rw [clamp_eq_self (by norm_num) (by norm_num)]

lemma luminance_black : (BitColor.mk 0 0 0).to_linear.relative_luminance = 0 := by
  simp [BitColor.to_linear, LinearColor.relative_luminance, to_linear_f_zero]

lemma luminance_white : (BitColor.mk 255 255 255).to_linear.relative_luminance = 1 := by
  simp only [BitColor.to_linear, LinearColor.relative_luminance, to_linear_f_255]
  norm_num

lemma animation_frames_getLast? (frames : ℕ) (hf : 0 < frames) (A B : Colors) :
    (animation_frames frames A B).getLast? = some (A.interpolate B 1) := by
  obtain ⟨k, rfl⟩ : ∃ k, frames = k + 1 := ⟨frames - 1, by omega⟩
  unfold animation_frames
  rw [List.range'_concat, List.map_append, List.map_cons, List.map_nil,
    List.getLast?_concat]
  have ht : ((1 + 1 * k : ℕ) : ℝ) / ((k + 1 : ℕ) : ℝ) = 1 := by
    rw [div_eq_one_iff_eq (by exact_mod_cast Nat.succ_ne_zero k)]
    push_cast
    ring
  rw [ht]

end ColorLemmas

section MoreLemmas

lemma mkColors_valid (fg bg : BitColor) (h1 : fg.valid) (h2 : bg.valid) :
    ∀ n c, mkColors fg bg n = some c → c.valid := by
  intro n c h
  simp only [mkColors] at h
  split_ifs at h
  · rw [← Option.some.injEq fg c |>.mp h]
    exact h1
  · rw [← Option.some.injEq bg c |>.mp h]
    exact h2

lemma findSome_guard_eq_find {β γ : Type} (l : List β) (f : β → γ)
    (P : γ → Prop) [DecidablePred P] :
    l.findSome? (fun b => if P (f b) then some (f b) else none) =
      (l.map f).find? (fun c => decide (P c)) := by
  induction l with
  | nil => rfl
  | cons b bs ih =>
    by_cases hP : P (f b)
    · simp [List.findSome?_cons, List.find?_cons, hP, if_pos hP]
    · simp [List.findSome?_cons, List.find?_cons, hP, if_neg hP, ih]

lemma assocGet_map_self {α β : Type} [DecidableEq α] (f : α → β) (l : List α) (a : α)
    (h : a ∈ l) : assocGet (l.map (fun x => (x, f x))) a = some (f a) := by
  induction l with
  | nil => simp at h
  | cons x xs ih =>
    simp only [List.map_cons, assocGet]
    by_cases hx : x = a
    · rw [if_pos hx, hx]
    · rw [if_neg hx]
      exact ih (by rcases List.mem_cons.mp h with h | h
                   · exact absurd h.symm hx
                   · exact h)

end MoreLemmas

/-- C10: for every `BitColor` with integer channels in `[0, 255]`, converting
to linear and back is the identity: `BitColor.from_linear (c.to_linear) = c`
(sRGB decode, then encode, rescale to `[0, 255]` and round-to-nearest
recovers every channel exactly). -/
theorem claim_C10_linear_roundtrip (c : BitColor) (h : c.valid) :
    BitColor.from_linear c.to_linear = c :=
  from_linear_to_linear c h

theorem claim_C10_witness :
    BitColor.valid ⟨12, 100, 255⟩ ∧
      BitColor.from_linear (BitColor.to_linear ⟨12, 100, 255⟩) = ⟨12, 100, 255⟩ :=
  ⟨by decide, claim_C10_linear_roundtrip ⟨12, 100, 255⟩ (by decide)⟩

/-- C6: after every append performed by the selector, the stored smart
history is the previous history plus the new name truncated to the most
recent `100` entries: its length is at most `100`, it is the suffix of
`history ++ [name]` obtained by dropping the oldest entries first, its most
recent entry is the new name, and nothing is dropped while the bound is not
exceeded. -/
theorem claim_C6_history_bound (history : List String) (name : String) :
    (append_smart_history history name).length ≤ 100 ∧
    append_smart_history history name =
      (history ++ [name]).drop (history.length + 1 - 100) ∧
    (append_smart_history history name).IsSuffix (history ++ [name]) ∧
    (append_smart_history history name).getLast? = some name ∧
    (history.length + 1 ≤ 100 → append_smart_history history name = history ++ [name]) := by
  have heq := append_smart_history_eq history name
  have hlen : (history ++ [name]).length = history.length + 1 := by simp
  refine ⟨?_, heq, ?_, ?_, ?_⟩
  · rw [heq, List.length_drop, hlen]
    omega
  · rw [heq]
    exact List.drop_suffix _ _
  · rw [heq]
    exact drop_append_getLast? history name _ (by omega)
  · intro hle
    rw [heq, show history.length + 1 - 100 = 0 from by omega, List.drop_zero]

theorem claim_C6_witness :
    (["a"].length + 1 ≤ 100) ∧ append_smart_history ["a"] "b" = ["a", "b"] :=
  ⟨by decide, (claim_C6_history_bound ["a"] "b").2.2.2.2 (by decide)⟩

/-- C5: `contrast_ratio` equals
`clamp(((max r1 r2 + 0.05) / (min r1 r2 + 0.05) - 1) / 20, [0, 1])` where
`r1`, `r2` are the relative luminances of the linearized foreground and
background; identical foreground and background give `0`; black-on-white and
white-on-black both give `1`. -/
theorem claim_C5_contrast_value :
    (∀ (c : Colors) (fg bg : BitColor), c Colors.FG = some fg → c Colors.BG = some bg →
      Colors.contrastValue c = some (clamp
        (((max fg.to_linear.relative_luminance bg.to_linear.relative_luminance + 0.05) /
          (min fg.to_linear.relative_luminance bg.to_linear.relative_luminance + 0.05) - 1)
          / 20) (0, 1))) ∧
    (∀ (c : Colors) (f : BitColor), c Colors.FG = some f → c Colors.BG = some f →
      Colors.contrastValue c = some 0) ∧
    Colors.contrastValue (mkColors ⟨0, 0, 0⟩ ⟨255, 255, 255⟩) = some 1 ∧
    Colors.contrastValue (mkColors ⟨255, 255, 255⟩ ⟨0, 0, 0⟩) = some 1 := by
  have hgen : ∀ (c : Colors) (fg bg : BitColor), c Colors.FG = some fg →
      c Colors.BG = some bg → Colors.contrastValue c = some (clamp
        (((max fg.to_linear.relative_luminance bg.to_linear.relative_luminance + 0.05) /
          (min fg.to_linear.relative_luminance bg.to_linear.relative_luminance + 0.05) - 1)
          / 20) (0, 1)) := by
    intro c fg bg h1 h2
    simp only [Colors.contrastValue, h1, h2]
  refine ⟨hgen, ?_, ?_, ?_⟩
  · intro c f h1 h2
    rw [hgen c f f h1 h2]
    have hr := luminance_nonneg f
    rw [max_self, min_self, div_self (by positivity : f.to_linear.relative_luminance
      + 0.05 ≠ 0), show ((1 : ℝ) - 1) / 20 = 0 from by norm_num,
      clamp_eq_self (le_refl (0 : ℝ)) (by norm_num)]
  · rw [hgen _ ⟨0, 0, 0⟩ ⟨255, 255, 255⟩ rfl (by decide), luminance_black, luminance_white]
    rw [max_eq_right (by norm_num : (0 : ℝ) ≤ 1), min_eq_left (by norm_num : (0 : ℝ) ≤ 1),
      show (((1 : ℝ) + 0.05) / ((0 : ℝ) + 0.05) - 1) / 20 = 1 from by norm_num,
      clamp_eq_self (by norm_num) (le_refl (1 : ℝ))]
  · rw [hgen _ ⟨255, 255, 255⟩ ⟨0, 0, 0⟩ rfl (by decide), luminance_black, luminance_white]
    rw [max_eq_left (by norm_num : (0 : ℝ) ≤ 1), min_eq_right (by norm_num : (0 : ℝ) ≤ 1),
      show (((1 : ℝ) + 0.05) / ((0 : ℝ) + 0.05) - 1) / 20 = 1 from by norm_num,
      clamp_eq_self (by norm_num) (le_refl (1 : ℝ))]

theorem claim_C5_witness :
    (mkColors ⟨7, 7, 7⟩ ⟨7, 7, 7⟩) Colors.FG = some ⟨7, 7, 7⟩ ∧
      Colors.contrastValue (mkColors ⟨7, 7, 7⟩ ⟨7, 7, 7⟩) = some 0 :=
  ⟨by decide, claim_C5_contrast_value.2.1 (mkColors ⟨7, 7, 7⟩ ⟨7, 7, 7⟩) ⟨7, 7, 7⟩
    (by decide) (by decide)⟩

/-- C4: `Colors.interpolate` keeps exactly the roles present in both inputs;
at `t = 0` it equals the first argument restricted to the shared roles and at
`t = 1` the second argument so restricted; consequently the final frame of
`animation_frames` (step `i = frames`, `t = 1`) is the end colors restricted
to the shared roles — exactly the end colors whenever the start preset
carries every role of the end preset. -/
theorem claim_C4_interpolate_frames :
    (∀ (A B : Colors) (t : ℝ) (n : String),
      (A.interpolate B t) n = none ↔ A n = none ∨ B n = none) ∧
    (∀ (A B : Colors), (∀ n c, A n = some c → c.valid) →
      A.interpolate B 0 = A.restrictTo B) ∧
    (∀ (A B : Colors), (∀ n c, B n = some c → c.valid) →
      A.interpolate B 1 = B.restrictTo A) ∧
    (∀ (frames : ℕ) (A B : Colors), 0 < frames → (∀ n c, B n = some c → c.valid) →
      (animation_frames frames A B).getLast? = some (B.restrictTo A)) ∧
    (∀ (frames : ℕ) (A B : Colors), 0 < frames → (∀ n c, B n = some c → c.valid) →
      (∀ n, (B n).isSome → (A n).isSome) →
      (animation_frames frames A B).getLast? = some B) := by
  have hone : ∀ (A B : Colors), (∀ n c, B n = some c → c.valid) →
      A.interpolate B 1 = B.restrictTo A := by
    intro A B hval
    funext n
    rcases hA : A n with _ | c1 <;> rcases hB : B n with _ | c2 <;>
      simp only [Colors.interpolate, Colors.restrictTo, hA, hB, Option.isSome_none,
        Option.isSome_some, if_true, if_false, Bool.false_eq_true]
    · rw [LinearColor.interp_at_one]
      rw [from_linear_to_linear c2 (hval n c2 hB)]
  refine ⟨?_, ?_, hone, ?_, ?_⟩
  · intro A B t n
    rcases hA : A n with _ | c1 <;> rcases hB : B n with _ | c2 <;>
      simp [Colors.interpolate, hA, hB]
  · intro A B hval
    funext n
    rcases hA : A n with _ | c1 <;> rcases hB : B n with _ | c2 <;>
      simp only [Colors.interpolate, Colors.restrictTo, hA, hB, Option.isSome_none,
        Option.isSome_some, if_true, if_false, Bool.false_eq_true]
    · rw [LinearColor.interp_at_zero]
      rw [from_linear_to_linear c1 (hval n c1 hA)]
  · intro frames A B hf hval
    rw [animation_frames_getLast? frames hf A B, hone A B hval]
  · intro frames A B hf hval hdom
    rw [animation_frames_getLast? frames hf A B, hone A B hval]
    have : B.restrictTo A = B := by
      funext n
      simp only [Colors.restrictTo]
      by_cases hB : (B n).isSome
      · rw [if_pos (hdom n hB)]
      · split
        · rfl
        · exact (Option.not_isSome_iff_eq_none.mp hB).symm
    rw [this]

theorem claim_C4_witness :
    (0 < 3) ∧ (animation_frames 3 (mkColors ⟨0, 0, 0⟩ ⟨255, 255, 255⟩)
        (mkColors ⟨255, 255, 255⟩ ⟨0, 0, 0⟩)).getLast? =
      some ((mkColors ⟨255, 255, 255⟩ ⟨0, 0, 0⟩).restrictTo
        (mkColors ⟨0, 0, 0⟩ ⟨255, 255, 255⟩)) :=
  ⟨by decide, claim_C4_interpolate_frames.2.2.2.1 3 _ _ (by decide)
    (mkColors_valid _ _ (by decide) (by decide))⟩

/-- C7: `normalized_ranks` yields the empty map on `[]`, rank `1/2` on a
single item, and otherwise assigns rank `i / (n - 1)` to the item at sorted
index `i` of the stable key-sort (ascending unless `reverse`); the ranked
items are a permutation of the input, ascending sorts are ascending in the
key, and the sorted input `[1, 5, 7, 32, 70]` receives the ranks
`{1 ↦ 0, 5 ↦ 1/4, 7 ↦ 1/2, 32 ↦ 3/4, 70 ↦ 1}`. -/
theorem claim_C7_normalized_ranks :
    (∀ (key : ℚ → ℚ) (reverse : Bool), normalized_ranks ([] : List ℚ) key reverse = []) ∧
    (∀ (v : ℚ) (key : ℚ → ℚ) (reverse : Bool),
      normalized_ranks [v] key reverse = [(v, 1 / 2)]) ∧
    (∀ (values : List ℚ) (key : ℚ → ℚ) (reverse : Bool),
      List.Perm ((normalized_ranks values key reverse).map Prod.fst) values) ∧
    (∀ (values : List ℚ) (key : ℚ → ℚ),
      List.Pairwise (fun p q : ℚ × ℚ => key p.1 ≤ key q.1)
        (normalized_ranks values key false)) ∧
    (∀ (values : List ℚ) (key : ℚ → ℚ) (reverse : Bool) (i : ℕ),
      2 ≤ values.length → i < values.length →
      ∃ x, (normalized_ranks values key reverse)[i]? =
        some (x, (i : ℚ) / ((values.length - 1 : ℕ) : ℚ))) ∧
    normalized_ranks [1, 5, 7, 32, 70] (fun x : ℚ => x) false =
      [(1, 0), (5, 1 / 4), (7, 1 / 2), (32, 3 / 4), (70, 1)] ∧
    normalized_ranks ["b", "a"] (fun _ => (0 : ℚ)) false = [("b", 0), ("a", 1)] ∧
    normalized_ranks [5, 1, 2] (fun x : ℚ => x) true = [(5, 0), (2, 1 / 2), (1, 1)] := by
  refine ⟨fun _ _ => rfl, fun _ _ _ => rfl, norm_ranks_fst_perm, norm_ranks_pairwise,
    fun values key reverse i h1 h2 => norm_ranks_getElem? values key reverse h1 i h2,
    ?_, ?_, ?_⟩ <;>
  norm_num [normalized_ranks, rankRel, withRanks, List.insertionSort, List.orderedInsert]

theorem claim_C7_witness :
    (2 ≤ ([1, 5] : List ℚ).length) ∧
      ∃ x, (normalized_ranks ([1, 5] : List ℚ) (fun x : ℚ => x) false)[1]? =
        some (x, (1 : ℚ) / ((([1, 5] : List ℚ).length - 1 : ℕ) : ℚ)) :=
  ⟨by norm_num, claim_C7_normalized_ranks.2.2.2.2.1 [1, 5] (fun x => x) false 1
    (by norm_num) (by norm_num)⟩

/-- C8: `bimodal_normalized_ranks` on a single item yields rank `1/4` when
`key item ≤ middle` and `3/4` when `middle < key item`; and on no input do a
left-side item and a right-side item simultaneously receive rank exactly
`1/2` (in fact no item ever receives exactly `1/2`). -/
theorem claim_C8_bimodal_ranks :
    (∀ (key : ℚ → ℚ) (v middle : ℚ), key v ≤ middle →
      bimodal_normalized_ranks [v] middle key false = [(v, 1 / 4)]) ∧
    (∀ (key : ℚ → ℚ) (v middle : ℚ), middle < key v →
      bimodal_normalized_ranks [v] middle key false = [(v, 3 / 4)]) ∧
    (∀ (values : List ℚ) (middle : ℚ) (key : ℚ → ℚ) (reverse : Bool),
      ¬ ((∃ x, key x ≤ middle ∧
            (x, (1 : ℚ) / 2) ∈ bimodal_normalized_ranks values middle key reverse) ∧
         (∃ y, middle < key y ∧
            (y, (1 : ℚ) / 2) ∈ bimodal_normalized_ranks values middle key reverse))) := by
  refine ⟨?_, ?_, ?_⟩
  · intro key v middle hkey
    have hd1 : decide (key v ≤ middle) = true := decide_eq_true hkey
    have hd2 : decide (middle < key v) = false := decide_eq_false (not_lt.mpr hkey)
    norm_num [bimodal_normalized_ranks, List.filter_cons, List.filter_nil, hd1, hd2,
      gapOf, normalized_ranks, map_number, clamp, min_def, max_def]
  · intro key v middle hkey
    have hd1 : decide (key v ≤ middle) = false := decide_eq_false (not_le.mpr hkey)
    have hd2 : decide (middle < key v) = true := decide_eq_true hkey
    norm_num [bimodal_normalized_ranks, List.filter_cons, List.filter_nil, hd1, hd2,
      gapOf, normalized_ranks, map_number, clamp, min_def, max_def]
  · rintro values middle key reverse ⟨⟨x, hx1, hx2⟩, -⟩
    exact bimodal_rank_ne_half values middle key reverse x (1 / 2) hx2 rfl

theorem claim_C8_witness :
    ((0 : ℚ) ≤ (0 : ℚ)) ∧
      bimodal_normalized_ranks ([0] : List ℚ) 0 (fun x : ℚ => x) false = [(0, 1 / 4)] :=
  ⟨by norm_num, claim_C8_bimodal_ranks.1 (fun x => x) 0 0 (by norm_num)⟩

/-- C3: `smart_choice` never returns a preset whose name lies in the last
`avoid_repeat` history entries, fails when the preset set is empty, and
fails when the exclusion leaves zero candidates; with history `["A", "B"]`,
`avoid_repeat = 2` and preset set `{A, B, C}` only `"C"` is eligible, and it
is chosen whatever the scores are. -/
theorem claim_C3_avoid_repeat :
    (∀ (presets history : List String) (n : ℕ) (total : String → ℚ) (choice : String)
      (h2 : List String), smart_choice_sel presets history n total = Except.ok (choice, h2) →
      choice ∈ presets ∧ choice ∉ takeLast n history) ∧
    (∀ (history : List String) (n : ℕ) (total : String → ℚ),
      smart_choice_sel [] history n total =
        Except.error "no color presets to choose from") ∧
    (∀ (presets history : List String) (n : ℕ) (total : String → ℚ),
      presets ≠ [] → n ≠ 0 →
      presets.filter (fun p => decide (p ∉ takeLast n history)) = [] →
      smart_choice_sel presets history n total =
        Except.error (toString n ++ ": cannot satisfy smart.avoid_repeat config")) ∧
    smart_choice_options ["A", "B", "C"] ["A", "B"] 2 = Except.ok ["C"] ∧
    (∀ total : String → ℚ, smart_choice_sel ["A", "B", "C"] ["A", "B"] 2 total =
      Except.ok ("C", ["A", "B", "C"])) := by
  refine ⟨?_, ?_, ?_, rfl, fun total => rfl⟩
  · intro presets history n total choice h2 h
    obtain ⟨ha, hb, -⟩ := smart_choice_sel_ok h
    exact ⟨ha, hb⟩
  · intro history n total
    exact smart_choice_sel_nil history n total
  · intro presets history n total hne hn hempty
    exact smart_choice_sel_excluded total hne hn hempty

theorem claim_C3_witness :
    smart_choice_sel ["A", "B", "C"] ["A", "B"] 2 (fun _ => (0 : ℚ)) =
        Except.ok ("C", ["A", "B", "C"]) ∧
      "C" ∈ ["A", "B", "C"] ∧ "C" ∉ takeLast 2 ["A", "B"] :=
  ⟨rfl, claim_C3_avoid_repeat.1 ["A", "B", "C"] ["A", "B"] 2 (fun _ => 0) "C"
    ["A", "B", "C"] rfl⟩

/-- C9: `light_dark_alternate` tries the textual replacements in the fixed
nested source order and returns the first transformed name that differs from
the input and exists in the preset pool; `"solarized-light"` yields
`"solarized-dark"` when that is in the pool, `"solarized"` when only that is
in the pool, and nothing when neither is present. -/
theorem claim_C9_light_dark_alternate :
    (∀ (presets : List String) (preset_name : String),
      light_dark_alternate presets preset_name = (lightDarkCandidates preset_name).find?
        (fun other => decide (other ≠ preset_name ∧ other ∈ presets))) ∧
    light_dark_alternate ["solarized-light", "solarized-dark"] "solarized-light" =
      some "solarized-dark" ∧
    light_dark_alternate ["solarized-light", "solarized"] "solarized-light" =
      some "solarized" ∧
    light_dark_alternate ["solarized-light", "other"] "solarized-light" = none := by
  refine ⟨?_, by decide, by decide, by decide⟩
  intro presets preset_name
  exact findSome_guard_eq_find lightDarkReplacements
    (fun pr => pyReplace preset_name pr.1 pr.2)
    (fun other => other ≠ preset_name ∧ other ∈ presets)

/-- C2: the ideal rank of an axis is
`map_number (clamp (v + offset) (0, 1)) (mn, mx) (0, 1)` for a present raw
signal `v`, `none` for an absent signal, and an absent signal makes that
axis contribute a zero score term to every preset.  Stated over
`calculate_ideal_rank` and `smart_scores` as modelled from the spec, since
the source line `presets.py:105` calls `clamp` without its required range
argument and raises a `TypeError` on every present signal. -/
theorem claim_C2_ideal_rank :
    (∀ offset mn mx : ℚ, calculate_ideal_rank offset mn mx none = none) ∧
    (∀ offset mn mx v : ℚ, calculate_ideal_rank offset mn mx (some v) =
      some (map_number (clamp (v + offset) (0, 1)) (mn, mx) (0, 1))) ∧
    (∀ (w1 w2 w3 : ℚ) (bim : Bool) (idealDisplay : Option ℚ) (rand : Preset → ℚ)
      (presets : List Preset),
      (smart_scores w1 w2 w3 bim none idealDisplay rand presets).map
        (fun e => e.2.sun) = presets.map (fun _ => (0 : ℚ))) ∧
    (∀ (w1 w2 w3 : ℚ) (bim : Bool) (idealSun : Option ℚ) (rand : Preset → ℚ)
      (presets : List Preset),
      (smart_scores w1 w2 w3 bim idealSun none rand presets).map
        (fun e => e.2.display) = presets.map (fun _ => (0 : ℚ))) := by
  refine ⟨fun _ _ _ => rfl, fun _ _ _ _ => rfl, ?_, ?_⟩
  · intro w1 w2 w3 bim idealDisplay rand presets
    simp [smart_scores, mul_zero, Function.comp_def]
  · intro w1 w2 w3 bim idealSun rand presets
    simp [smart_scores, mul_zero, Function.comp_def]

/-- C1: for every non-empty candidate list, the selection step of
`smart_choice` picks a candidate whose `smart_scores` total is maximal
(first maximum in iteration order), and in the spec scenario — three presets
of brightness `0.1 / 0.5 / 0.9` and contrast `0.8 / 0.5 / 0.2`, sun weight
`10`, display weight `0`, random weight `0`, ideal sun rank `1` — it
returns the brightness-`0.9` preset.  Stated over `smart_choice` as
modelled from the spec: the source function raises on every call with a
non-empty preset set, since it hands preset names to `smart_scores` and
never calls the `total` method it compares by. -/
theorem claim_C1_smart_choice_max :
    (∀ (key : Preset → ℚ) (x : Preset) (xs : List Preset),
      pyMax key (x :: xs) = some (maxBy key x xs) ∧ maxBy key x xs ∈ x :: xs ∧
        ∀ y ∈ x :: xs, key y ≤ key (maxBy key x xs)) ∧
    (∀ (x : Preset) (xs : List Preset) (history : List String) (w1 w2 w3 : ℚ)
      (bim : Bool) (iS iD : Option ℚ) (rand : Preset → ℚ),
      smart_choice (x :: xs) history 0 w1 w2 w3 bim iS iD rand =
        Except.ok (maxBy (fun p =>
            ((assocGet (smart_scores w1 w2 w3 bim iS iD rand (x :: xs)) p).getD
              ⟨0, 0, 0⟩).total) x xs,
          append_smart_history history (maxBy (fun p =>
            ((assocGet (smart_scores w1 w2 w3 bim iS iD rand (x :: xs)) p).getD
              ⟨0, 0, 0⟩).total) x xs).name)) ∧
    (∀ rand : Preset → ℚ,
      smart_choice [⟨"A", 1/10, 4/5⟩, ⟨"B", 1/2, 1/2⟩, ⟨"C", 9/10, 1/5⟩] [] 0
        10 0 0 false (some 1) none rand =
      Except.ok (⟨"C", 9/10, 1/5⟩, ["C"])) := by
  refine ⟨pyMax_spec, fun x xs history w1 w2 w3 bim iS iD rand => rfl, ?_⟩
  intro rand
  norm_num [smart_choice, smart_scores, normalized_ranks, rankRel, withRanks,
    List.insertionSort, List.orderedInsert, assocGet, pyMax, maxBy, closeness,
    clamp, map_number, SmartScore.total, append_smart_history, set_smart_history,
    takeLast, MAX_SMART_HISTORY, min_def, max_def, Preset.mk.injEq]

theorem claim_C1_witness :
    smart_choice [⟨"A", 1/10, 4/5⟩, ⟨"B", 1/2, 1/2⟩, ⟨"C", 9/10, 1/5⟩] [] 0
        10 0 0 false (some 1) none (fun _ => 0) =
      Except.ok (⟨"C", 9/10, 1/5⟩, ["C"]) ∧
    (⟨"A", 0, 0⟩ : Preset) ∈ [(⟨"A", 0, 0⟩ : Preset), ⟨"B", 1, 0⟩] ∧
    (fun p : Preset => p.brightness) ⟨"A", 0, 0⟩ ≤ (fun p : Preset => p.brightness)
      (maxBy (fun p : Preset => p.brightness) ⟨"A", 0, 0⟩ [⟨"B", 1, 0⟩]) :=
  ⟨claim_C1_smart_choice_max.2.2 (fun _ => 0), by decide,
    (claim_C1_smart_choice_max.1 (fun p => p.brightness) ⟨"A", 0, 0⟩ [⟨"B", 1, 0⟩]).2.2
      ⟨"A", 0, 0⟩ (by decide)⟩

end Rainbowterm
